import Mathlib

/-!
Shallow embedding of the normalized GraphQL entity cache
(`packages/core/src/cache/entity-store.ts` and `index.ts`).

JavaScript values that can flow through the cache are modelled by `Val`
(JSON values plus `undefined`).  JavaScript objects are association lists
of string keys (JS objects cannot hold duplicate keys, and both
`Object.entries` iteration and property insertion follow insertion
order, which the association list preserves).  `Map` objects are
association lists as well, with `Map.set` replacing in place on an
existing key and appending otherwise.
-/

set_option maxHeartbeats 1000000

namespace GraphQLCache

/-- A JavaScript value: JSON values plus `undefined`. -/
inductive Val where
  | vnull
  | vundef
  | vbool (b : Bool)
  | vnum (n : Int)
  | vstr (s : String)
  | varr (items : List Val)
  | vobj (fields : List (String × Val))

/-- A JavaScript object: ordered fields (JS objects have no duplicate keys). -/
abbrev Obj := List (String × Val)

/-- An `EntityId` is a plain string such as `"User:1"`. -/
abbrev EntityId := String

/-- The entity table: a JS `Map` from `EntityId` to stored entity record. -/
abbrev EntityMap := List (EntityId × Obj)

/-- Property read `obj[k]`: first (only) binding of the key. -/
def objGet (fields : Obj) (k : String) : Option Val :=
  fields.lookup k

/-- The JS `"k" in obj` test: key presence. -/
def hasKey (fields : Obj) (k : String) : Bool :=
  (objGet fields k).isSome

/-- Assignment on a string-keyed association list (shared semantics of
JS property assignment and `Map.set`): overwrite in place when the key
exists, append otherwise. -/
def alSet {β : Type} (m : List (String × β)) (k : String) (v : β) : List (String × β) :=
  if (m.lookup k).isSome then
    m.map (fun p => if p.1 = k then (k, v) else p)
  else
    m ++ [(k, v)]

/-- Property assignment `obj[k] = v`. -/
def objSet (fields : Obj) (k : String) (v : Val) : Obj :=
  alSet fields k v

/-- Object spread merge `{...a, ...b}`: assign every field of `b` onto a
copy of `a`, in order. -/
def objMerge (a b : Obj) : Obj :=
  b.foldl (fun acc p => objSet acc p.1 p.2) a

/-- Rest destructuring `const { [f]: _, ...rest } = obj`: drop one key. -/
def objRemove (fields : Obj) (k : String) : Obj :=
  fields.filter (fun p => p.1 ≠ k)

/-- `Map.get`. -/
def emGet (m : EntityMap) (k : EntityId) : Option Obj :=
  m.lookup k

/-- `Map.set`: replace in place on an existing key, append otherwise. -/
def emSet (m : EntityMap) (k : EntityId) (v : Obj) : EntityMap :=
  alSet m k v

/-- `Map.delete`. -/
def emDelete (m : EntityMap) (k : EntityId) : EntityMap :=
  m.filter (fun p => p.1 ≠ k)

/-- JS truthiness of a value (`NaN` is outside the model). -/
def jsTruthy : Val → Bool
  | .vnull => false
  | .vundef => false
  | .vbool b => b
  | .vnum n => n ≠ 0
  | .vstr s => s ≠ ""
  | .varr _ => true
  | .vobj _ => true

mutual

/-- JS string coercion, as in a template literal.  Arrays stringify by
joining their elements with a comma, rendering `null` and `undefined`
elements as empty strings; plain objects become `"[object Object]"`. -/
def jsToString : Val → String
  | .vnull => "null"
  | .vundef => "undefined"
  | .vbool b => cond b "true" "false"
  | .vnum n => toString n
  | .vstr s => s
  | .varr items => jsArrToString items
  | .vobj _ => "[object Object]"

/-- Helper of `jsToString`: `Array.prototype.toString` (comma join). -/
def jsArrToString : List Val → String
  | [] => ""
  | [v] => jsArrElem v
  | v :: w :: rest => jsArrElem v ++ "," ++ jsArrToString (w :: rest)

/-- Helper of `jsToString`: one array element in a comma join. -/
def jsArrElem : Val → String
  | .vnull => ""
  | .vundef => ""
  | .vbool b => cond b "true" "false"
  | .vnum n => toString n
  | .vstr s => s
  | .varr items => jsArrToString items
  | .vobj _ => "[object Object]"
end

/-- The `keyFields` entry of a `TypePolicy`: a field-name list or a
custom `KeyFieldsFunction` (`(object) => string | null`, with `null`
modelled as `none`). -/
inductive KeyFields where
  | list (fields : List String)
  | func (f : Obj → Option String)

/-- Per-type cache policy (only `keyFields` matters to the embedded
code paths; `fields` and `merge` policies are never consulted there). -/
structure TypePolicy where
  keyFields : Option KeyFields := none

/-- The `TypePolicies` record: typename to policy. -/
abbrev TypePolicies := List (String × TypePolicy)

/-- One segment of a list-policy key: `String(value)` for primitive
string/number/boolean values, the empty string otherwise. -/
def keySegment (object : Obj) (field : String) : String :=
  match objGet object field with
  | some (.vstr s) => s
  | some (.vnum n) => toString n
  | some (.vbool b) => cond b "true" "false"
  | _ => ""

/-- The `id ?? _id` nullish coalescing used by the default identity. -/
def defaultIdValue (object : Obj) : Val :=
  match objGet object "id" with
  | none => (objGet object "_id").getD .vundef
  | some .vnull => (objGet object "_id").getD .vundef
  | some .vundef => (objGet object "_id").getD .vundef
  | some v => v

/-- Translation of `getEntityId(object, typePolicies)`. -/
def getEntityId (object : Obj) (typePolicies : TypePolicies) : Option EntityId :=
  let tv := (objGet object "__typename").getD .vundef
  if !jsTruthy tv then
    none
  else
    let typename := jsToString tv
    match (typePolicies.lookup typename).bind (fun p => p.keyFields) with
    | some (.func f) =>
      match f object with
      | some s => if s = "" then none else some (typename ++ ":" ++ s)
      | none => none
    | some (.list keyFields) =>
      some (typename ++ ":" ++ String.intercalate ":" (keyFields.map (keySegment object)))
    | none =>
      match defaultIdValue object with
      | .vstr s => some (typename ++ ":" ++ s)
      | .vnum n => some (typename ++ ":" ++ toString n)
      | _ => none

/-- Translation of `toEntityRef`: the object `{ __ref: entityId }`. -/
def toEntityRef (entityId : EntityId) : Val :=
  .vobj [("__ref", .vstr entityId)]

/-- Translation of `isEntityRef`: a non-null object with a `__ref` key. -/
def isEntityRef : Val → Bool
  | .vobj fields => hasKey fields "__ref"
  | _ => false

/-- Translation of `isEntity`: `__typename` is a string and `id` or
`_id` is non-nullish. -/
def isEntity : Val → Bool
  | .vobj fields =>
    (match objGet fields "__typename" with
      | some (.vstr _) => true
      | _ => false)
      &&
    (match defaultIdValue fields with
      | .vnull => false
      | .vundef => false
      | _ => true)
  | _ => false

mutual

/-- The recursive worker `normalizeValue` of `normalize`, with the
mutable `entities` map threaded explicitly.  Nested objects are
normalized first (left to right over `Object.entries`), then an object
with a resolvable identity is merged into the map and replaced by a
reference. -/
def normalizeValue (tp : TypePolicies) : Val → EntityMap → Val × EntityMap
  | .vnull, entities => (.vnull, entities)
  | .vundef, entities => (.vundef, entities)
  | .vbool b, entities => (.vbool b, entities)
  | .vnum n, entities => (.vnum n, entities)
  | .vstr s, entities => (.vstr s, entities)
  | .varr items, entities =>
    let p := normalizeListVals tp items entities
    (.varr p.1, p.2)
  | .vobj fields, entities =>
    let entityId := getEntityId fields tp
    let p := normalizeObjFields tp fields entities
    match entityId with
    | some id =>
      let record :=
        match emGet p.2 id with
        | some existing => objMerge existing p.1
        | none => p.1
      (toEntityRef id, emSet p.2 id record)
    | none => (.vobj p.1, p.2)

/-- Element-wise normalization of an array, threading the map. -/
def normalizeListVals (tp : TypePolicies) : List Val → EntityMap → List Val × EntityMap
  | [], entities => ([], entities)
  | v :: rest, entities =>
    let p := normalizeValue tp v entities
    let q := normalizeListVals tp rest p.2
    (p.1 :: q.1, q.2)

/-- Field-wise normalization of an object's entries, threading the map.
Keys of a JS object are unique, so assignment into the fresh
`normalizedObj` in entry order is field-wise construction. -/
def normalizeObjFields (tp : TypePolicies) : List (String × Val) → EntityMap → Obj × EntityMap
  | [], entities => ([], entities)
  | (k, v) :: rest, entities =>
    let p := normalizeValue tp v entities
    let q := normalizeObjFields tp rest p.2
    ((k, p.1) :: q.1, q.2)

end

/-- Translation of `normalize(data, typePolicies)`: runs the worker on
a fresh empty entity map. -/
def normalize (data : Val) (tp : TypePolicies) : Val × EntityMap :=
  normalizeValue tp data []

mutual

/-- The result tree of normalization does not depend on the threaded
entity map; `normResult` is that map-free result (see
`normalizeValue_fst`). -/
def normResult (tp : TypePolicies) : Val → Val
  | .vnull => .vnull
  | .vundef => .vundef
  | .vbool b => .vbool b
  | .vnum n => .vnum n
  | .vstr s => .vstr s
  | .varr items => .varr (normResultList tp items)
  | .vobj fields =>
    match getEntityId fields tp with
    | some id => toEntityRef id
    | none => .vobj (normResultFields tp fields)

/-- Map-free normalization result of an array. -/
def normResultList (tp : TypePolicies) : List Val → List Val
  | [] => []
  | v :: rest => normResult tp v :: normResultList tp rest

/-- Map-free normalization result of an object's entries. -/
def normResultFields (tp : TypePolicies) : List (String × Val) → Obj
  | [] => []
  | (k, v) :: rest => (k, normResult tp v) :: normResultFields tp rest

end

mutual

/-- The first component of `normalizeValue` ignores the threaded map. -/
theorem normalizeValue_fst (tp : TypePolicies) (v : Val) (E : EntityMap) :
    (normalizeValue tp v E).1 = normResult tp v := by
  cases v with
  | vnull => rfl
  | vundef => rfl
  | vbool b => rfl
  | vnum n => rfl
  | vstr s => rfl
  | varr items =>
    simp only [normalizeValue, normResult, normalizeListVals_fst tp items E]
  | vobj fields =>
    simp only [normalizeValue, normResult]
    cases getEntityId fields tp with
    | none => simp only [normalizeObjFields_fst tp fields E]
    | some id => rfl

/-- The first component of `normalizeListVals` ignores the threaded map. -/
theorem normalizeListVals_fst (tp : TypePolicies) (items : List Val) (E : EntityMap) :
    (normalizeListVals tp items E).1 = normResultList tp items := by
  cases items with
  | nil => rfl
  | cons v rest =>
    simp only [normalizeListVals, normResultList, normalizeValue_fst tp v E,
      normalizeListVals_fst tp rest (normalizeValue tp v E).2]

/-- The first component of `normalizeObjFields` ignores the threaded map. -/
theorem normalizeObjFields_fst (tp : TypePolicies) (fields : List (String × Val)) (E : EntityMap) :
    (normalizeObjFields tp fields E).1 = normResultFields tp fields := by
  cases fields with
  | nil => rfl
  | cons p rest =>
    simp only [normalizeObjFields, normResultFields, normalizeValue_fst tp p.2 E,
      normalizeObjFields_fst tp rest (normalizeValue tp p.2 E).2]

end

/-- Number of entity-map keys not yet on the visited path; the
termination measure of `denormalize`. -/
def unvisitedCount (E : EntityMap) (visited : List EntityId) : Nat :=
  ((E.map Prod.fst).filter (fun k => !visited.contains k)).length

/-- Helper of the termination argument: extending the visited path
never enlarges the unvisited-key count. -/
theorem filter_unvisited_le (id : String) (vis l : List String) :
    (l.filter (fun k => !(id :: vis).contains k)).length ≤
      (l.filter (fun k => !vis.contains k)).length := by
  induction l with
  | nil => simp
  | cons a l ih =>
    by_cases hv : a ∈ vis <;> by_cases ha : a = id <;>
      simp_all [List.filter_cons, List.contains_cons] <;> omega

/-- Helper of the termination argument: filtering out one more present
key strictly shrinks the filtered length. -/
theorem filter_unvisited_lt (id : String) (vis : List String)
    (hv : vis.contains id = false) :
    ∀ l : List String, id ∈ l →
      (l.filter (fun k => !(id :: vis).contains k)).length <
        (l.filter (fun k => !vis.contains k)).length := by
  have hv' : id ∉ vis := by simpa using hv
  intro l
  induction l with
  | nil => intro h; cases h
  | cons a l ih =>
    intro hmem
    by_cases ha : a = id
    · subst ha
      have hle := filter_unvisited_le a vis l
      simp only [List.filter_cons, List.contains_cons] at hle ⊢
      simp [hv'] at hle ⊢
      omega
    · have hmem' : id ∈ l := by
        cases hmem with
        | head => exact absurd rfl ha
        | tail _ h => exact h
      have hlt := ih hmem'
      by_cases hva : a ∈ vis <;>
        (simp only [List.filter_cons, List.contains_cons] at hlt ⊢;
         simp [hva, ha, hv'] at hlt ⊢) <;> omega

/-- Visiting a key of the entity map that is not yet on the path
strictly shrinks the `denormalize` measure. -/
theorem unvisitedCount_cons_lt (E : EntityMap) (visited : List EntityId) (id : EntityId)
    (hmem : id ∈ E.map Prod.fst) (hv : visited.contains id = false) :
    unvisitedCount E (id :: visited) < unvisitedCount E visited :=
  filter_unvisited_lt id visited hv (E.map Prod.fst) hmem

/-- A successful `Map.get` means the key is among the map's keys. -/
theorem emGet_mem_keys {E : EntityMap} {id : EntityId} {r : Obj}
    (h : emGet E id = some r) : id ∈ E.map Prod.fst := by
  induction E with
  | nil => simp [emGet] at h
  | cons p rest ih =>
    obtain ⟨k, v⟩ := p
    by_cases hp : id = k
    · simp [hp]
    · simp only [emGet, List.lookup, beq_false_of_ne hp] at h
      exact List.mem_cons_of_mem _ (ih h)

mutual

/-- Translation of `denormalize(result, entities, visited)`.  The
visited set is modelled as the list of entity ids on the current
recursion path: the source adds the id before descending into a
reference's record and deletes it after returning, so the set observed
at any point is exactly the ancestor path, which the explicit parameter
reproduces. -/
def denormalize (E : EntityMap) (visited : List EntityId) : Val → Val
  | .vnull => .vnull
  | .vundef => .vundef
  | .vbool b => .vbool b
  | .vnum n => .vnum n
  | .vstr s => .vstr s
  | .varr items => .varr (denormalizeList E visited items)
  | .vobj fields =>
    if hasKey fields "__ref" then
      match objGet fields "__ref" with
      | some (.vstr entityId) =>
        if hv : visited.contains entityId then
          toEntityRef entityId
        else
          match hent : emGet E entityId with
          | none => .vundef
          | some entity => denormalize E (entityId :: visited) (.vobj entity)
      | _ =>
        -- a non-string `__ref` misses both the visited set and the
        -- string-keyed entity map, so the lookup is undefined
        .vundef
    else
      .vobj (denormalizeFields E visited fields)
termination_by v => (unvisitedCount E visited, sizeOf v)
decreasing_by
  · apply Prod.Lex.right
    simp
  · exact Prod.Lex.left _ _ (unvisitedCount_cons_lt E visited entityId
      (emGet_mem_keys hent) (by simpa using hv))
  · apply Prod.Lex.right
    simp

/-- Element-wise denormalization of an array; siblings share the
ancestor path only. -/
def denormalizeList (E : EntityMap) (visited : List EntityId) : List Val → List Val
  | [] => []
  | v :: rest => denormalize E visited v :: denormalizeList E visited rest
termination_by items => (unvisitedCount E visited, sizeOf items)
decreasing_by
  · apply Prod.Lex.right
    simp
    omega
  · apply Prod.Lex.right
    simp

/-- Field-wise denormalization of a plain object's entries. -/
def denormalizeFields (E : EntityMap) (visited : List EntityId) : List (String × Val) → Obj
  | [] => []
  | (k, v) :: rest => (k, denormalize E visited v) :: denormalizeFields E visited rest
termination_by fields => (unvisitedCount E visited, sizeOf fields)
decreasing_by
  · apply Prod.Lex.right
    simp
    omega
  · apply Prod.Lex.right
    simp

end

/-- A GraphQL selection inside a selection set (only `Field` selections
matter to `extractFieldsFromSelectionSet`; other kinds are skipped). -/
inductive Selection where
  | field (name : String) (aliasName : Option String)
  | inlineFragment
  | fragmentSpread

/-- A document definition: a fragment definition with its top-level
selection set, or any other definition kind. -/
inductive Definition where
  | fragmentDefinition (selections : List Selection)
  | otherDefinition

/-- A GraphQL `DocumentNode`: a list of definitions. -/
structure DocumentNode where
  definitions : List Definition

/-- JS `Set.add` on an insertion-ordered string set. -/
def setAdd (s : List String) (x : String) : List String :=
  if x ∈ s then s else s ++ [x]

/-- Translation of `extractFieldsFromSelectionSet`: collect each field
selection under its alias when present, otherwise its name; nested
selection sets are not recursed into. -/
def extractFieldsFromSelectionSet (selections : List Selection)
    (fields : List String) : List String :=
  selections.foldl
    (fun fs sel =>
      match sel with
      | .field name aliasName => setAdd fs (aliasName.getD name)
      | _ => fs)
    fields

/-- Translation of `getFragmentFields`: fields of the first fragment
definition, plus `__typename`, which is always added; a document with
no fragment definition yields the empty set. -/
def getFragmentFields (fragment : DocumentNode) : List String :=
  match fragment.definitions.find?
      (fun d => match d with | .fragmentDefinition _ => true | _ => false) with
  | some (.fragmentDefinition sels) =>
    setAdd (extractFieldsFromSelectionSet sels []) "__typename"
  | _ => []

/-- Reference resolution applied by `denormalizeWithMask` to a direct
field value or to one array element: a resolvable, not-yet-visited
reference is fully denormalized; anything else is kept as is. -/
def maskResolveRef (E : EntityMap) (visited : List EntityId) (value : Val) : Val :=
  match value with
  | .vobj fields =>
    if hasKey fields "__ref" then
      match objGet fields "__ref" with
      | some (.vstr rid) =>
        match emGet E rid with
        | some refEntity =>
          if visited.contains rid then value
          else denormalize E (rid :: visited) (.vobj refEntity)
        | none => value
      | _ => value
    else value
  | _ => value

/-- The per-field body of `denormalizeWithMask`: direct references and
references inside an array are resolved; everything else (including
nested refs deeper than one array level) is copied raw. -/
def maskFieldValue (E : EntityMap) (visited : List EntityId) : Val → Val
  | .varr items => .varr (items.map (maskResolveRef E visited))
  | v => maskResolveRef E visited v

/-- Translation of `denormalizeWithMask(entity, entities,
fragmentFields, visited)`: keep exactly the declared fields present on
the record, in declaration order. -/
def denormalizeWithMask (entity : Obj) (E : EntityMap)
    (fragmentFields : List String) (visited : List EntityId) : Obj :=
  fragmentFields.foldl
    (fun result fieldName =>
      if hasKey entity fieldName then
        objSet result fieldName
          (maskFieldValue E visited ((objGet entity fieldName).getD .vundef))
      else result)
    []

/-- State of the `useNormalizedCache` store: the base entity map, the
ordered optimistic layers, and the configured type policies. -/
structure StoreState where
  entities : EntityMap
  optimisticLayers : List (String × EntityMap)
  typePolicies : TypePolicies

/-- The shared merge step of `getEntities` and `write`: one incoming
entity merged into a map under the shallow-overwrite rule. -/
def mergeEntityInto (m : EntityMap) (id : EntityId) (entity : Obj) : EntityMap :=
  match emGet m id with
  | some existing => emSet m id (objMerge existing entity)
  | none => emSet m id entity

/-- Merging one optimistic layer's entity map on top of a map. -/
def mergeLayerInto (m : EntityMap) (layer : String × EntityMap) : EntityMap :=
  layer.2.foldl (fun acc p => mergeEntityInto acc p.1 p.2) m

/-- Translation of `getEntities()`: the base map when no layer is
active, otherwise a copy of the base with each layer merged on top,
oldest to newest. -/
def getEntities (S : StoreState) : EntityMap :=
  if S.optimisticLayers.isEmpty then S.entities
  else S.optimisticLayers.foldl mergeLayerInto S.entities

/-- Translation of `write(data)`: normalize the payload against the
store's type policies and merge the produced entities into the base
map. -/
def write (S : StoreState) (data : Val) : StoreState :=
  let newEntities := (normalize data S.typePolicies).2
  let updatedEntities := newEntities.foldl (fun m p => mergeEntityInto m p.1 p.2) S.entities
  { S with entities := updatedEntities }

/-- The embedded `denormalize` of the source has no `throw` site, so
its exception-aware form always succeeds. -/
def denormalizeE (E : EntityMap) (root : Val) : Except String Val :=
  .ok (denormalize E [] root)

/-- The `try`/`catch` structure of `read`, parametric in the (possibly
throwing) denormalization step: a raised exception becomes `null`. -/
def readCatch (den : EntityMap → Val → Except String Val)
    (S : StoreState) (root : Val) : Option Val :=
  match den (getEntities S) root with
  | .ok t => some t
  | .error _ => none

/-- Translation of `read(rootResult)`. -/
def read (S : StoreState) (root : Val) : Option Val :=
  readCatch denormalizeE S root

/-- The `id` argument of `readFragment`/`writeFragment`/`evict`: an
`EntityId` string or an identifiable object. -/
def entityIdFromArg (tp : TypePolicies) : EntityId ⊕ Obj → Option EntityId
  | .inl s => some s
  | .inr obj => getEntityId obj tp

/-- The `if (!entityId)` falsy guard shared by `readFragment`,
`writeFragment` and `evict`: `null` and the empty string bail out. -/
def idGuard : Option EntityId → Option EntityId
  | some s => if s = "" then none else some s
  | none => none

/-- Translation of `readFragment(id, fragment?)`. -/
def readFragment (S : StoreState) (id : EntityId ⊕ Obj)
    (fragment : Option DocumentNode) : Option Val :=
  match idGuard (entityIdFromArg S.typePolicies id) with
  | none => none
  | some entityId =>
    let allEntities := getEntities S
    match emGet allEntities entityId with
    | none => none
    | some entity =>
      match fragment with
      | some frag =>
        some (.vobj (denormalizeWithMask entity allEntities (getFragmentFields frag) []))
      | none => some (denormalize allEntities [] (.vobj entity))

/-- Translation of `writeFragment(id, data)`: merge the raw fields
directly into one record, bypassing normalization. -/
def writeFragment (S : StoreState) (id : EntityId ⊕ Obj) (data : Obj) : StoreState :=
  match idGuard (entityIdFromArg S.typePolicies id) with
  | none => S
  | some entityId =>
    let updatedEntities :=
      match emGet S.entities entityId with
      | some existing => emSet S.entities entityId (objMerge existing data)
      | none => emSet S.entities entityId data
    { S with entities := updatedEntities }

/-- Translation of `evict(id, fieldName?)`: drop one field or the whole
record; the returned flag says whether a record existed. -/
def evict (S : StoreState) (id : EntityId ⊕ Obj)
    (fieldName : Option String) : StoreState × Bool :=
  match idGuard (entityIdFromArg S.typePolicies id) with
  | none => (S, false)
  | some entityId =>
    match emGet S.entities entityId with
    | none => (S, false)
    | some entity =>
      let updatedEntities :=
        match fieldName with
        | some f => emSet S.entities entityId (objRemove entity f)
        | none => emDelete S.entities entityId
      ({ S with entities := updatedEntities }, true)

/-- Translation of `clear()`: empty the base map and drop every layer. -/
def clear (S : StoreState) : StoreState :=
  { S with entities := [], optimisticLayers := [] }

/-- Translation of `addOptimisticLayer(layerId, data)`: normalize the
payload into a fresh entity map and append it as a new layer. -/
def addOptimisticLayer (S : StoreState) (layerId : String) (data : Val) : StoreState :=
  { S with optimisticLayers :=
      S.optimisticLayers ++ [(layerId, (normalize data S.typePolicies).2)] }

/-- Translation of `removeOptimisticLayer(layerId)`: filter out every
layer carrying that id. -/
def removeOptimisticLayer (S : StoreState) (layerId : String) : StoreState :=
  { S with optimisticLayers := S.optimisticLayers.filter (fun layer => layer.1 ≠ layerId) }

/-! ### Association-list lemmas -/

/-- Key membership gives a successful lookup. -/
theorem lookup_isSome_of_mem_keys {β : Type} {m : List (String × β)} {k : String}
    (h : k ∈ m.map Prod.fst) : (m.lookup k).isSome := by
  induction m with
  | nil => simp at h
  | cons p rest ih =>
    obtain ⟨a, b⟩ := p
    by_cases hk : k = a
    · simp [List.lookup, hk]
    · simp only [List.map_cons, List.mem_cons] at h
      simp only [List.lookup, beq_false_of_ne hk]
      exact ih (h.resolve_left hk)

/-- A failed lookup means the key is absent. -/
theorem not_mem_keys_of_lookup_none {β : Type} {m : List (String × β)} {k : String}
    (h : m.lookup k = none) : k ∉ m.map Prod.fst := by
  intro hmem
  have := lookup_isSome_of_mem_keys hmem
  rw [h] at this
  simp at this

/-- Lookup through the in-place replacement map, at the replaced key. -/
theorem lookup_map_replace_self {β : Type} (m : List (String × β)) (k : String) (v : β)
    (h : (m.lookup k).isSome) :
    (m.map (fun p => if p.1 = k then (k, v) else p)).lookup k = some v := by
  induction m with
  | nil => simp [List.lookup] at h
  | cons p rest ih =>
    obtain ⟨a, b⟩ := p
    by_cases hak : a = k
    · subst hak
      have hmap : List.map (fun p : String × β => if p.1 = a then (a, v) else p) ((a, b) :: rest)
          = (a, v) :: List.map (fun p : String × β => if p.1 = a then (a, v) else p) rest := by
        simp
      rw [hmap]
      simp [List.lookup]
    · have hka : (k == a) = false := beq_false_of_ne (fun hh => hak hh.symm)
      have hmap : List.map (fun p : String × β => if p.1 = k then (k, v) else p) ((a, b) :: rest)
          = (a, b) :: List.map (fun p : String × β => if p.1 = k then (k, v) else p) rest := by
        simp [hak]
      rw [hmap]
      simp only [List.lookup, hka] at h ⊢
      exact ih h

/-- Lookup through the in-place replacement map, at any other key. -/
theorem lookup_map_replace_ne {β : Type} (m : List (String × β)) (k k' : String) (v : β)
    (h : k' ≠ k) :
    (m.map (fun p => if p.1 = k then (k, v) else p)).lookup k' = m.lookup k' := by
  induction m with
  | nil => rfl
  | cons p rest ih =>
    obtain ⟨a, b⟩ := p
    by_cases hak : a = k
    · subst hak
      have hmap : List.map (fun p : String × β => if p.1 = a then (a, v) else p) ((a, b) :: rest)
          = (a, v) :: List.map (fun p : String × β => if p.1 = a then (a, v) else p) rest := by
        simp
      rw [hmap]
      simp only [List.lookup, beq_false_of_ne h]
      exact ih
    · have hmap : List.map (fun p : String × β => if p.1 = k then (k, v) else p) ((a, b) :: rest)
          = (a, b) :: List.map (fun p : String × β => if p.1 = k then (k, v) else p) rest := by
        simp [hak]
      rw [hmap]
      by_cases hk'a : k' = a
      · simp [List.lookup, hk'a]
      · simp only [List.lookup, beq_false_of_ne hk'a]
        exact ih

/-- Lookup over an append skips a prefix that misses the key. -/
theorem lookup_append_none {β : Type} (m₁ m₂ : List (String × β)) (k : String)
    (h : m₁.lookup k = none) : (m₁ ++ m₂).lookup k = m₂.lookup k := by
  induction m₁ with
  | nil => rfl
  | cons p rest ih =>
    obtain ⟨a, b⟩ := p
    by_cases hka : k = a
    · simp [List.lookup, hka] at h
    · simp only [List.cons_append, List.lookup, beq_false_of_ne hka] at h ⊢
      exact ih h

/-- Lookup over an append keeps a hit in the prefix. -/
theorem lookup_append_some {β : Type} (m₁ m₂ : List (String × β)) (k : String) (v : β)
    (h : m₁.lookup k = some v) : (m₁ ++ m₂).lookup k = some v := by
  induction m₁ with
  | nil => simp [List.lookup] at h
  | cons p rest ih =>
    obtain ⟨a, b⟩ := p
    by_cases hka : k = a
    · simp_all [List.lookup, hka]
    · simp only [List.cons_append, List.lookup, beq_false_of_ne hka] at h ⊢
      exact ih h

/-- Reading back the key just assigned. -/
theorem alSet_lookup_self {β : Type} (m : List (String × β)) (k : String) (v : β) :
    (alSet m k v).lookup k = some v := by
  unfold alSet
  by_cases hk : (m.lookup k).isSome = true
  · simpa [hk] using lookup_map_replace_self m k v hk
  · have hnone : m.lookup k = none := by
      cases h : m.lookup k
      · rfl
      · simp [h] at hk
    simp only [hnone, Option.isSome_none, Bool.false_eq_true, if_false]
    rw [lookup_append_none _ _ _ hnone]
    simp [List.lookup]

/-- Assignment leaves every other key's binding unchanged. -/
theorem alSet_lookup_ne {β : Type} (m : List (String × β)) (k k' : String) (v : β)
    (h : k' ≠ k) : (alSet m k v).lookup k' = m.lookup k' := by
  unfold alSet
  by_cases hk : (m.lookup k).isSome = true
  · simpa [hk] using lookup_map_replace_ne m k k' v h
  · have hnone : m.lookup k = none := by
      cases hc : m.lookup k
      · rfl
      · simp [hc] at hk
    simp only [hnone, Option.isSome_none, Bool.false_eq_true, if_false]
    cases h2 : m.lookup k' with
    | some w => exact lookup_append_some _ _ _ _ h2
    | none =>
      rw [lookup_append_none _ _ _ h2]
      simp [List.lookup, beq_false_of_ne h]

/-- Assigning a present key keeps the key list. -/
theorem alSet_keys_of_isSome {β : Type} (m : List (String × β)) (k : String) (v : β)
    (h : (m.lookup k).isSome) :
    (alSet m k v).map Prod.fst = m.map Prod.fst := by
  unfold alSet
  simp only [h, if_true, List.map_map]
  apply List.map_congr_left
  intro p _
  by_cases hp : p.1 = k <;> simp [hp]

/-- Assigning a fresh key appends it to the key list. -/
theorem alSet_keys_of_none {β : Type} (m : List (String × β)) (k : String) (v : β)
    (h : m.lookup k = none) :
    (alSet m k v).map Prod.fst = m.map Prod.fst ++ [k] := by
  unfold alSet
  simp [h]

/-- Assignment preserves distinctness of the keys. -/
theorem alSet_keys_nodup {β : Type} (m : List (String × β)) (k : String) (v : β)
    (h : (m.map Prod.fst).Nodup) : ((alSet m k v).map Prod.fst).Nodup := by
  cases hc : m.lookup k with
  | some w =>
    rw [alSet_keys_of_isSome m k v (by simp [hc])]
    exact h
  | none =>
    rw [alSet_keys_of_none m k v hc]
    refine List.Nodup.append h (List.nodup_singleton k) ?_
    intro a ha hb
    simp only [List.mem_singleton] at hb
    subst hb
    exact not_mem_keys_of_lookup_none hc ha

/-! ### Merge lemmas -/

/-- Spread merge does not touch a field absent from the right side. -/
theorem objMerge_lookup_not_mem (a b : Obj) (f : String)
    (h : f ∉ b.map Prod.fst) : objGet (objMerge a b) f = objGet a f := by
  induction b generalizing a with
  | nil => rfl
  | cons p rest ih =>
    obtain ⟨k, w⟩ := p
    simp only [List.map_cons, List.mem_cons, not_or] at h
    show objGet (List.foldl (fun acc p => objSet acc p.1 p.2) (objSet a k w) rest) f
      = objGet a f
    have h2 := ih (objSet a k w) h.2
    unfold objMerge at h2
    rw [h2]
    exact alSet_lookup_ne a k f w h.1

/-- Spread merge takes the right side's value for a field it carries
(keys of a JS object are distinct). -/
theorem objMerge_lookup_right (a b : Obj) (f : String) (v : Val)
    (hnd : (b.map Prod.fst).Nodup) (hf : objGet b f = some v) :
    objGet (objMerge a b) f = some v := by
  induction b generalizing a with
  | nil => simp [objGet, List.lookup] at hf
  | cons p rest ih =>
    obtain ⟨k, w⟩ := p
    simp only [List.map_cons, List.nodup_cons] at hnd
    by_cases hfk : f = k
    · subst hfk
      have hv : v = w := by
        simp [objGet, List.lookup] at hf
        exact hf.symm
      subst hv
      show objGet (List.foldl (fun acc p => objSet acc p.1 p.2) (objSet a f v) rest) f
        = some v
      have h2 := objMerge_lookup_not_mem (objSet a f v) rest f hnd.1
      unfold objMerge at h2
      rw [h2]
      exact alSet_lookup_self a f v
    · have hfr : objGet rest f = some v := by
        simpa [objGet, List.lookup, beq_false_of_ne hfk] using hf
      show objGet (List.foldl (fun acc p => objSet acc p.1 p.2) (objSet a k w) rest) f
        = some v
      exact ih (objSet a k w) hnd.2 hfr

/-- `mergeEntityInto` leaves other keys' records unchanged. -/
theorem mergeEntityInto_get_ne (m : EntityMap) (k e : EntityId) (r : Obj)
    (h : e ≠ k) : emGet (mergeEntityInto m k r) e = emGet m e := by
  unfold mergeEntityInto
  cases emGet m k <;> exact alSet_lookup_ne m k e _ h

/-- Folding entities into a map leaves keys outside the list alone. -/
theorem fold_mergeEntityInto_get_not_mem (L : EntityMap) (m : EntityMap) (e : EntityId)
    (h : e ∉ L.map Prod.fst) :
    emGet (L.foldl (fun acc p => mergeEntityInto acc p.1 p.2) m) e = emGet m e := by
  induction L generalizing m with
  | nil => rfl
  | cons q tail ih =>
    simp only [List.map_cons, List.mem_cons, not_or] at h
    simp only [List.foldl_cons]
    rw [ih (mergeEntityInto m q.1 q.2) h.2]
    exact mergeEntityInto_get_ne m q.1 e q.2 h.1

/-- Folding a distinct-keyed entity list into a map installs, at each
carried key, the shallow merge with whatever the map already held. -/
theorem fold_mergeEntityInto_get (L : EntityMap) (m : EntityMap) (e : EntityId) (r : Obj)
    (hnd : (L.map Prod.fst).Nodup) (hL : emGet L e = some r) :
    emGet (L.foldl (fun acc p => mergeEntityInto acc p.1 p.2) m) e
      = some (match emGet m e with
              | some existing => objMerge existing r
              | none => r) := by
  induction L generalizing m with
  | nil => simp [emGet, List.lookup] at hL
  | cons p rest ih =>
    obtain ⟨k, rec⟩ := p
    simp only [List.map_cons, List.nodup_cons] at hnd
    by_cases hek : e = k
    · subst hek
      have hr : r = rec := by
        simp [emGet, List.lookup] at hL
        exact hL.symm
      subst hr
      simp only [List.foldl_cons]
      rw [fold_mergeEntityInto_get_not_mem rest (mergeEntityInto m e r) e hnd.1]
      unfold mergeEntityInto
      cases hme : emGet m e with
      | some existing => simpa [hme] using alSet_lookup_self m e (objMerge existing r)
      | none => simpa [hme] using alSet_lookup_self m e r
    · have hLr : emGet rest e = some r := by
        simpa [emGet, List.lookup, beq_false_of_ne hek] using hL
      simp only [List.foldl_cons]
      rw [ih (mergeEntityInto m k rec) hnd.2 hLr]
      rw [mergeEntityInto_get_ne m k e rec hek]

/-! ### Claim C3: optimistic layer reversibility -/

/-- C3.  For every base store state `S` whose existing layers do not
already use the handle (the source hands out process-unique handles),
adding an optimistic layer and immediately removing it by its handle
restores the state exactly — hence the composed view equals that of
`S` — and adding a layer never changes the base entity map. -/
theorem optimistic_layer_reversibility (S : StoreState) (layerId : String) (data : Val)
    (hfresh : ∀ l ∈ S.optimisticLayers, l.1 ≠ layerId) :
    removeOptimisticLayer (addOptimisticLayer S layerId data) layerId = S
    ∧ getEntities (removeOptimisticLayer (addOptimisticLayer S layerId data) layerId)
        = getEntities S
    ∧ (addOptimisticLayer S layerId data).entities = S.entities := by
  have h1 : removeOptimisticLayer (addOptimisticLayer S layerId data) layerId = S := by
    cases S with
    | mk ents layers tp =>
      simp only [removeOptimisticLayer, addOptimisticLayer]
      refine congrArg (fun L => StoreState.mk ents L tp) ?_
      rw [List.filter_append]
      have hself : layers.filter (fun layer => layer.1 ≠ layerId) = layers := by
        rw [List.filter_eq_self]
        intro l hl
        simpa using hfresh l hl
      rw [hself]
      simp
  exact ⟨h1, by rw [h1], by simp [addOptimisticLayer]⟩

/-- Witness for C3 at a concrete state, payload and fresh handle. -/
theorem optimistic_layer_reversibility_witness :
    (∀ l ∈ ([(("a" : String), ([] : EntityMap))] : List (String × EntityMap)), l.1 ≠ "b")
    ∧ removeOptimisticLayer
        (addOptimisticLayer ⟨[("User:1", [("name", .vstr "x")])], [("a", [])], []⟩ "b"
          (.vobj [("__typename", .vstr "User"), ("id", .vstr "1"), ("name", .vstr "y")]))
        "b"
      = ⟨[("User:1", [("name", .vstr "x")])], [("a", [])], []⟩ := by
  refine ⟨by simp, ?_⟩
  exact (optimistic_layer_reversibility
    ⟨[("User:1", [("name", .vstr "x")])], [("a", [])], []⟩ "b"
    (.vobj [("__typename", .vstr "User"), ("id", .vstr "1"), ("name", .vstr "y")])
    (by simp)).1

mutual

/-- Normalization only ever `Map.set`s, so it keeps the entity map's
keys distinct. -/
theorem normalizeValue_keys_nodup (tp : TypePolicies) (v : Val) (E : EntityMap)
    (h : (E.map Prod.fst).Nodup) : ((normalizeValue tp v E).2.map Prod.fst).Nodup := by
  cases v with
  | vnull => exact h
  | vundef => exact h
  | vbool b => exact h
  | vnum n => exact h
  | vstr s => exact h
  | varr items => exact normalizeListVals_keys_nodup tp items E h
  | vobj fields =>
    have hf := normalizeObjFields_keys_nodup tp fields E h
    simp only [normalizeValue]
    cases hid : getEntityId fields tp with
    | none => exact hf
    | some id =>
      cases hex : emGet (normalizeObjFields tp fields E).2 id with
      | some existing => exact alSet_keys_nodup _ id _ hf
      | none => exact alSet_keys_nodup _ id _ hf

/-- Key distinctness through element-wise array normalization. -/
theorem normalizeListVals_keys_nodup (tp : TypePolicies) (items : List Val) (E : EntityMap)
    (h : (E.map Prod.fst).Nodup) : ((normalizeListVals tp items E).2.map Prod.fst).Nodup := by
  cases items with
  | nil => exact h
  | cons v rest =>
    exact normalizeListVals_keys_nodup tp rest _ (normalizeValue_keys_nodup tp v E h)

/-- Key distinctness through field-wise object normalization. -/
theorem normalizeObjFields_keys_nodup (tp : TypePolicies) (fields : List (String × Val))
    (E : EntityMap) (h : (E.map Prod.fst).Nodup) :
    ((normalizeObjFields tp fields E).2.map Prod.fst).Nodup := by
  cases fields with
  | nil => exact h
  | cons p rest =>
    exact normalizeObjFields_keys_nodup tp rest _ (normalizeValue_keys_nodup tp p.2 E h)

end

/-! ### Claim C4: write merge semantics -/

/-- C4.  When a record already exists for an `EntityId`, `write`
replaces it with the shallow union of the old and incoming records
(incoming values overwrite same-named fields, absent fields are kept);
in particular writing a `name` and then an `email` for `User:1`
accumulates both fields. -/
theorem write_merge_semantics :
    (∀ (S : StoreState) (data : Val) (id : EntityId) (old incoming : Obj),
        emGet S.entities id = some old →
        emGet (normalize data S.typePolicies).2 id = some incoming →
        emGet (write S data).entities id = some (objMerge old incoming))
    ∧ (write (write ⟨[], [], []⟩
          (.vobj [("__typename", .vstr "User"), ("id", .vstr "1"), ("name", .vstr "A")]))
          (.vobj [("__typename", .vstr "User"), ("id", .vstr "1"), ("email", .vstr "a@x")])).entities
        = [("User:1",
            [("__typename", .vstr "User"), ("id", .vstr "1"),
             ("name", .vstr "A"), ("email", .vstr "a@x")])] := by
  constructor
  · intro S data id old incoming hold hinc
    have hnd : ((normalize data S.typePolicies).2.map Prod.fst).Nodup :=
      normalizeValue_keys_nodup S.typePolicies data [] (by simp)
    have hgot := fold_mergeEntityInto_get (normalize data S.typePolicies).2 S.entities id
      incoming hnd hinc
    show emGet ((normalize data S.typePolicies).2.foldl
      (fun m p => mergeEntityInto m p.1 p.2) S.entities) id = some (objMerge old incoming)
    rw [hgot, hold]
  · rfl

/-- Witness for C4's general part at the example's second write. -/
theorem write_merge_semantics_witness :
    emGet (write ⟨[("User:1", [("__typename", .vstr "User"), ("id", .vstr "1"),
          ("name", .vstr "A")])], [], []⟩
        (.vobj [("__typename", .vstr "User"), ("id", .vstr "1"), ("email", .vstr "a@x")])).entities
      "User:1"
    = some (objMerge
        [("__typename", .vstr "User"), ("id", .vstr "1"), ("name", .vstr "A")]
        [("__typename", .vstr "User"), ("id", .vstr "1"), ("email", .vstr "a@x")]) :=
  write_merge_semantics.1
    ⟨[("User:1", [("__typename", .vstr "User"), ("id", .vstr "1"), ("name", .vstr "A")])], [], []⟩
    (.vobj [("__typename", .vstr "User"), ("id", .vstr "1"), ("email", .vstr "a@x")])
    "User:1"
    [("__typename", .vstr "User"), ("id", .vstr "1"), ("name", .vstr "A")]
    [("__typename", .vstr "User"), ("id", .vstr "1"), ("email", .vstr "a@x")]
    rfl rfl

/-! ### Claim C5: layer precedence -/

/-- C5.  The composed view starts from the base snapshot and folds the
layers in, oldest to newest, under the shallow-overwrite rule; hence
with two layers both touching field `f` of entity `e`, the later
layer's value is the one the composed view reports. -/
theorem layer_precedence :
    (∀ S : StoreState, getEntities S = S.optimisticLayers.foldl mergeLayerInto S.entities)
    ∧ (∀ (base : EntityMap) (tp : TypePolicies) (L1 L2 : String × EntityMap)
        (e : EntityId) (r2 : Obj) (f : String) (v : Val),
        (L2.2.map Prod.fst).Nodup → (r2.map Prod.fst).Nodup →
        emGet L2.2 e = some r2 → objGet r2 f = some v →
        ∃ r, emGet (getEntities ⟨base, [L1, L2], tp⟩) e = some r ∧ objGet r f = some v) := by
  constructor
  · intro S
    unfold getEntities
    cases hL : S.optimisticLayers with
    | nil => simp
    | cons a as => simp
  · intro base tp L1 L2 e r2 f v hndL hndr hL2 hf
    have hge : getEntities ⟨base, [L1, L2], tp⟩
        = mergeLayerInto (mergeLayerInto base L1) L2 := by
      unfold getEntities
      simp [List.foldl]
    have hgot : emGet (mergeLayerInto (mergeLayerInto base L1) L2) e
        = some (match emGet (mergeLayerInto base L1) e with
                | some existing => objMerge existing r2
                | none => r2) :=
      fold_mergeEntityInto_get L2.2 (mergeLayerInto base L1) e r2 hndL hL2
    rw [hge, hgot]
    cases hme : emGet (mergeLayerInto base L1) e with
    | some ex =>
      exact ⟨objMerge ex r2, rfl, objMerge_lookup_right ex r2 f v hndr hf⟩
    | none =>
      exact ⟨r2, rfl, hf⟩

/-- Witness for C5 at the `name = "A"` / `name = "B"` example. -/
theorem layer_precedence_witness :
    ∃ r, emGet (getEntities ⟨[],
        [("l1", [("User:1", [("__typename", .vstr "User"), ("id", .vstr "1"),
            ("name", .vstr "A")])]),
         ("l2", [("User:1", [("__typename", .vstr "User"), ("id", .vstr "1"),
            ("name", .vstr "B")])])], []⟩) "User:1" = some r
      ∧ objGet r "name" = some (.vstr "B") :=
  layer_precedence.2 [] []
    ("l1", [("User:1", [("__typename", .vstr "User"), ("id", .vstr "1"), ("name", .vstr "A")])])
    ("l2", [("User:1", [("__typename", .vstr "User"), ("id", .vstr "1"), ("name", .vstr "B")])])
    "User:1"
    [("__typename", .vstr "User"), ("id", .vstr "1"), ("name", .vstr "B")]
    "name" (.vstr "B")
    (by simp) (by simp) rfl rfl

/-! ### Claim C9: multi-field identity format -/

/-- C9.  With a field-name-list policy, the resolver concatenates the
stringified listed field values in order (missing or non-primitive
values as empty segments) into `typename:v1:v2:...`; concretely,
`identityFields ["sku", "warehouse"]` on the `Product` example yields
`"Product:X:W1"`. -/
theorem multi_field_identity :
    (∀ (object : Obj) (tp : TypePolicies) (tv : Val) (fs : List String),
        objGet object "__typename" = some tv → jsTruthy tv = true →
        (tp.lookup (jsToString tv)).bind (fun p => p.keyFields) = some (.list fs) →
        getEntityId object tp
          = some (jsToString tv ++ ":" ++ String.intercalate ":" (fs.map (keySegment object))))
    ∧ getEntityId
        [("__typename", .vstr "Product"), ("sku", .vstr "X"), ("warehouse", .vstr "W1")]
        [("Product", ⟨some (.list ["sku", "warehouse"])⟩)]
      = some "Product:X:W1" := by
  constructor
  · intro object tp tv fs htv htruthy hpol
    unfold getEntityId
    simp only [htv, Option.getD_some, htruthy, Bool.not_true, Bool.false_eq_true, if_false, hpol]
  · rfl

/-- Witness for C9 re-deriving the concrete example through the
general branch formula. -/
theorem multi_field_identity_witness :
    getEntityId
        [("__typename", .vstr "Product"), ("sku", .vstr "X"), ("warehouse", .vstr "W1")]
        [("Product", ⟨some (.list ["sku", "warehouse"])⟩)]
      = some (jsToString (.vstr "Product") ++ ":" ++ String.intercalate ":"
          (["sku", "warehouse"].map (keySegment
            [("__typename", .vstr "Product"), ("sku", .vstr "X"), ("warehouse", .vstr "W1")]))) :=
  multi_field_identity.1
    [("__typename", .vstr "Product"), ("sku", .vstr "X"), ("warehouse", .vstr "W1")]
    [("Product", ⟨some (.list ["sku", "warehouse"])⟩)]
    (.vstr "Product") ["sku", "warehouse"] rfl rfl rfl

/-! ### Claim C8: identity resolver null condition -/

/-- C8 counterexample.  Two inputs whose computed identity value is
empty, which the claim says must resolve to null, yet `getEntityId`
returns a non-null `EntityId`: the default policy with `id = ""`
yields `"T:"`, and a field-name-list policy with the listed field
missing yields `"Product:"`. -/
theorem identity_null_condition_counterexample :
    getEntityId [("__typename", .vstr "T"), ("id", .vstr "")] [] = some "T:"
    ∧ getEntityId [("__typename", .vstr "Product")]
        [("Product", ⟨some (.list ["sku"])⟩)] = some "Product:" :=
  ⟨rfl, rfl⟩

/-- C8 amended.  The exact null condition of `getEntityId`: null when
the type discriminator is absent or falsy; with a custom key function,
null exactly when the function returns null or the empty string; with
a field-name list, never null; with the default policy, null exactly
when the `id ?? _id` value is not a string and not a number.  An
unresolved object is kept inline by normalization (treated as
embedded) and no error is raised. -/
theorem identity_null_condition_amended :
    (∀ (object : Obj) (tp : TypePolicies),
        jsTruthy ((objGet object "__typename").getD .vundef) = false →
        getEntityId object tp = none)
    ∧ (∀ (object : Obj) (tp : TypePolicies) (tv : Val) (f : Obj → Option String),
        objGet object "__typename" = some tv → jsTruthy tv = true →
        (tp.lookup (jsToString tv)).bind (fun p => p.keyFields) = some (.func f) →
        (getEntityId object tp = none ↔ (f object = none ∨ f object = some "")))
    ∧ (∀ (object : Obj) (tp : TypePolicies) (tv : Val) (fs : List String),
        objGet object "__typename" = some tv → jsTruthy tv = true →
        (tp.lookup (jsToString tv)).bind (fun p => p.keyFields) = some (.list fs) →
        getEntityId object tp ≠ none)
    ∧ (∀ (object : Obj) (tp : TypePolicies) (tv : Val),
        objGet object "__typename" = some tv → jsTruthy tv = true →
        (tp.lookup (jsToString tv)).bind (fun p => p.keyFields) = none →
        (getEntityId object tp = none ↔
          ((∀ s, defaultIdValue object ≠ .vstr s) ∧ (∀ n, defaultIdValue object ≠ .vnum n))))
    ∧ (∀ (fields : Obj) (tp : TypePolicies) (E : EntityMap),
        getEntityId fields tp = none →
        normalizeValue tp (.vobj fields) E
          = (.vobj (normalizeObjFields tp fields E).1, (normalizeObjFields tp fields E).2)) := by
  refine ⟨?_, ?_, ?_, ?_, ?_⟩
  · intro object tp hfalsy
    unfold getEntityId
    simp [hfalsy]
  · intro object tp tv f htv htruthy hpol
    unfold getEntityId
    simp only [htv, Option.getD_some, htruthy, Bool.not_true, Bool.false_eq_true, if_false, hpol]
    cases hf : f object with
    | none => simp
    | some s =>
      by_cases hs : s = ""
      · simp [hs]
      · simp [hs]
  · intro object tp tv fs htv htruthy hpol
    unfold getEntityId
    simp only [htv, Option.getD_some, htruthy, Bool.not_true, Bool.false_eq_true, if_false, hpol]
    simp
  · intro object tp tv htv htruthy hpol
    unfold getEntityId
    simp only [htv, Option.getD_some, htruthy, Bool.not_true, Bool.false_eq_true, if_false, hpol]
    cases hdv : defaultIdValue object <;> simp [hdv]
  · intro fields tp E hnone
    simp only [normalizeValue, hnone]

/-- Witness for C8's amended characterization at concrete inputs:
a missing discriminator, a primitive-but-boolean default id, and a
kept-inline embedded object. -/
theorem identity_null_condition_amended_witness :
    getEntityId [("id", .vstr "1")] [] = none
    ∧ getEntityId [("__typename", .vstr "T"), ("id", .vbool true)] [] = none
    ∧ normalizeValue [] (.vobj [("a", .vnum 1)]) []
        = (.vobj (normalizeObjFields [] [("a", .vnum 1)] []).1,
           (normalizeObjFields [] [("a", .vnum 1)] []).2) := by
  refine ⟨identity_null_condition_amended.1 [("id", .vstr "1")] [] rfl, ?_, ?_⟩
  · exact (identity_null_condition_amended.2.2.2.1
      [("__typename", .vstr "T"), ("id", .vbool true)] [] (.vstr "T") rfl rfl rfl).mpr
      (by constructor <;> intro x <;> simp [defaultIdValue, objGet, List.lookup])
  · exact identity_null_condition_amended.2.2.2.2 [("a", .vnum 1)] [] [] rfl

/-! ### Claim C10: read never throws -/

/-- C10.  The `try`/`catch` wrapper of `read` turns any exception from
the denormalization step into `null` and passes a successful result
through; with the source's denormalizer, which has no throw site,
`read` always returns the denormalized root. -/
theorem read_never_throws :
    (∀ (den : EntityMap → Val → Except String Val) (S : StoreState) (root : Val) (e : String),
        den (getEntities S) root = .error e → readCatch den S root = none)
    ∧ (∀ (den : EntityMap → Val → Except String Val) (S : StoreState) (root : Val) (t : Val),
        den (getEntities S) root = .ok t → readCatch den S root = some t)
    ∧ (∀ (S : StoreState) (root : Val),
        read S root = some (denormalize (getEntities S) [] root)) := by
  refine ⟨?_, ?_, ?_⟩
  · intro den S root e h
    unfold readCatch
    rw [h]
  · intro den S root t h
    unfold readCatch
    rw [h]
  · intro S root
    rfl

/-- Witness for C10 with a denormalization step that throws. -/
theorem read_never_throws_witness :
    readCatch (fun _ _ => .error "boom") ⟨[], [], []⟩ .vnull = none :=
  read_never_throws.1 (fun _ _ => .error "boom") ⟨[], [], []⟩ .vnull "boom" rfl

/-! ### Claim C2: denormalize cycle handling -/

/-- C2.  `denormalize` is total (it is defined by well-founded
recursion on unvisited entity keys); a reference whose id is already
on the recursion path comes back as the raw reference object; on the
two-entity cycle `A:1 ↔ B:2` the result is finite with the raw
reference at the point of re-entry; and because the visited set is
path-scoped, a diamond-shaped graph (`R → X → Z`, `R → Y → Z`) is
fully resolved on both branches. -/
theorem denormalize_cycle_handling :
    (∀ (E : EntityMap) (visited : List EntityId) (fields : Obj) (entityId : EntityId),
        objGet fields "__ref" = some (.vstr entityId) →
        visited.contains entityId = true →
        denormalize E visited (.vobj fields) = toEntityRef entityId)
    ∧ denormalize
        [("A:1", [("__typename", .vstr "A"), ("id", .vstr "1"), ("partner", toEntityRef "B:2")]),
         ("B:2", [("__typename", .vstr "B"), ("id", .vstr "2"), ("partner", toEntityRef "A:1")])]
        [] (toEntityRef "A:1")
      = .vobj [("__typename", .vstr "A"), ("id", .vstr "1"),
          ("partner", .vobj [("__typename", .vstr "B"), ("id", .vstr "2"),
            ("partner", toEntityRef "A:1")])]
    ∧ denormalize
        [("R", [("x", toEntityRef "X"), ("y", toEntityRef "Y")]),
         ("X", [("z", toEntityRef "Z")]),
         ("Y", [("z", toEntityRef "Z")]),
         ("Z", [("v", .vnum 1)])]
        [] (toEntityRef "R")
      = .vobj [("x", .vobj [("z", .vobj [("v", .vnum 1)])]),
               ("y", .vobj [("z", .vobj [("v", .vnum 1)])])] := by
  refine ⟨?_, ?_, ?_⟩
  · intro E visited fields entityId href hvis
    have hmem : entityId ∈ visited := by simpa using hvis
    rw [denormalize]
    simp [hasKey, href, hvis, hmem]
  · simp [denormalize, denormalizeFields, toEntityRef, hasKey, objGet, emGet, List.lookup]
  · simp [denormalize, denormalizeFields, toEntityRef, hasKey, objGet, emGet, List.lookup]

/-- Witness for C2's path re-entry rule at a concrete reference whose
id is already on the recursion path. -/
theorem denormalize_cycle_handling_witness :
    objGet [("__ref", Val.vstr "A:1"), ("extra", .vnum 7)] "__ref" = some (.vstr "A:1")
    ∧ (["A:1"] : List EntityId).contains "A:1" = true
    ∧ denormalize [] ["A:1"] (.vobj [("__ref", Val.vstr "A:1"), ("extra", .vnum 7)])
        = toEntityRef "A:1" :=
  ⟨rfl, rfl, denormalize_cycle_handling.1 [] ["A:1"]
    [("__ref", Val.vstr "A:1"), ("extra", .vnum 7)] "A:1" rfl rfl⟩

/-! ### Claim C6: masking exactness -/

/-- A successful lookup puts the key among the keys. -/
theorem mem_keys_of_lookup_isSome {β : Type} {m : List (String × β)} {k : String}
    (h : (m.lookup k).isSome) : k ∈ m.map Prod.fst := by
  induction m with
  | nil => simp [List.lookup] at h
  | cons p rest ih =>
    obtain ⟨a, b⟩ := p
    by_cases hk : k = a
    · simp [hk]
    · simp only [List.lookup, beq_false_of_ne hk] at h
      exact List.mem_cons_of_mem _ (ih h)

/-- An absent key looks up to `none`. -/
theorem lookup_none_of_not_mem_keys {β : Type} {m : List (String × β)} {k : String}
    (h : k ∉ m.map Prod.fst) : m.lookup k = none := by
  cases hc : m.lookup k with
  | none => rfl
  | some b => exact absurd (mem_keys_of_lookup_isSome (by simp [hc])) h

/-- The element just added is in the set. -/
theorem mem_setAdd_self (s : List String) (x : String) : x ∈ setAdd s x := by
  unfold setAdd
  by_cases h : x ∈ s <;> simp [h]

/-- `Set.add` preserves distinctness. -/
theorem setAdd_nodup (s : List String) (x : String) (h : s.Nodup) : (setAdd s x).Nodup := by
  unfold setAdd
  by_cases hx : x ∈ s
  · simpa [hx] using h
  · simp only [hx, if_false]
    exact List.Nodup.append h (List.nodup_singleton x)
      (fun a ha hb => by simp at hb; subst hb; exact hx ha)

/-- Field extraction preserves distinctness of the collected set. -/
theorem extractFields_nodup (selections : List Selection) (s : List String)
    (h : s.Nodup) : (extractFieldsFromSelectionSet selections s).Nodup := by
  induction selections generalizing s with
  | nil => exact h
  | cons sel rest ih =>
    cases sel with
    | field name aliasName => exact ih _ (setAdd_nodup s (aliasName.getD name) h)
    | inlineFragment => exact ih _ h
    | fragmentSpread => exact ih _ h

/-- Keys produced by the `denormalizeWithMask` fold: the accumulator's
keys followed by the declared fields present on the record. -/
theorem maskFold_keys (entity : Obj) (E : EntityMap) (visited : List EntityId) :
    ∀ (ff : List String) (acc : Obj),
      ff.Nodup → (∀ f ∈ ff, f ∉ acc.map Prod.fst) →
      ((ff.foldl (fun result fieldName =>
          if hasKey entity fieldName then
            objSet result fieldName
              (maskFieldValue E visited ((objGet entity fieldName).getD .vundef))
          else result) acc).map Prod.fst)
        = acc.map Prod.fst ++ ff.filter (fun f => hasKey entity f) := by
  intro ff
  induction ff with
  | nil =>
    intro acc _ _
    simp
  | cons f rest ih =>
    intro acc hnd hdisj
    simp only [List.nodup_cons] at hnd
    simp only [List.foldl_cons, List.filter_cons]
    by_cases hf : hasKey entity f = true
    · rw [if_pos hf, hf, if_pos rfl]
      have hlk : acc.lookup f = none :=
        lookup_none_of_not_mem_keys (hdisj f (List.mem_cons_self f rest))
      have hkeys : (objSet acc f
            (maskFieldValue E visited ((objGet entity f).getD .vundef))).map Prod.fst
          = acc.map Prod.fst ++ [f] :=
        alSet_keys_of_none acc f _ hlk
      rw [ih (objSet acc f _) hnd.2 ?_, hkeys]
      · simp
      · intro g hg
        rw [hkeys]
        simp only [List.mem_append, List.mem_singleton, not_or]
        exact ⟨hdisj g (List.mem_cons_of_mem f hg), fun hgf => hnd.1 (hgf ▸ hg)⟩
    · rw [if_neg hf]
      have hb : hasKey entity f = false := by
        cases hcc : hasKey entity f
        · rfl
        · exact absurd hcc hf
      rw [hb, if_neg (by simp)]
      exact ih acc hnd.2 (fun g hg => hdisj g (List.mem_cons_of_mem f hg))

/-- C6.  The declared set always carries the type discriminator (for a
document with a fragment definition) and is duplicate-free; the masked
record's keys are exactly the declared fields present on the stored
record, in declaration order; and the `User:1` example masks to
exactly `name`, `email` and `__typename`, with `id` and `phone`
absent. -/
theorem masking_exactness :
    (∀ (doc : DocumentNode) (sels : List Selection),
        doc.definitions.find?
            (fun d => match d with | .fragmentDefinition _ => true | _ => false)
          = some (.fragmentDefinition sels) →
        "__typename" ∈ getFragmentFields doc)
    ∧ (∀ doc : DocumentNode, (getFragmentFields doc).Nodup)
    ∧ (∀ (entity : Obj) (E : EntityMap) (ff : List String) (visited : List EntityId),
        ff.Nodup →
        (denormalizeWithMask entity E ff visited).map Prod.fst
          = ff.filter (fun f => hasKey entity f))
    ∧ getFragmentFields
        ⟨[.fragmentDefinition [.field "name" none, .field "email" none]]⟩
      = ["name", "email", "__typename"]
    ∧ denormalizeWithMask
        [("__typename", .vstr "User"), ("id", .vstr "1"), ("name", .vstr "A"),
         ("email", .vstr "e"), ("phone", .vstr "555")]
        [] ["name", "email", "__typename"] []
      = [("name", .vstr "A"), ("email", .vstr "e"), ("__typename", .vstr "User")] := by
  refine ⟨?_, ?_, ?_, rfl, rfl⟩
  · intro doc sels hfind
    unfold getFragmentFields
    rw [hfind]
    exact mem_setAdd_self _ _
  · intro doc
    unfold getFragmentFields
    cases hfind : doc.definitions.find?
        (fun d => match d with | .fragmentDefinition _ => true | _ => false) with
    | none => simp
    | some d =>
      cases d with
      | fragmentDefinition sels =>
        exact setAdd_nodup _ _ (extractFields_nodup sels [] (by simp))
      | otherDefinition => simp
  · intro entity E ff visited hnd
    have h := maskFold_keys entity E visited ff [] hnd (by simp)
    simpa [denormalizeWithMask] using h

/-- Witness for C6's hypothesised parts at the concrete fragment and
stored record of the example. -/
theorem masking_exactness_witness :
    "__typename" ∈ getFragmentFields
        ⟨[.fragmentDefinition [.field "name" none, .field "email" none]]⟩
    ∧ (denormalizeWithMask
        [("__typename", .vstr "User"), ("id", .vstr "1"), ("name", .vstr "A"),
         ("email", .vstr "e"), ("phone", .vstr "555")]
        [] ["name", "email", "__typename"] []).map Prod.fst
      = ["name", "email", "__typename"].filter
          (fun f => hasKey [("__typename", .vstr "User"), ("id", .vstr "1"),
            ("name", .vstr "A"), ("email", .vstr "e"), ("phone", .vstr "555")] f) :=
  ⟨masking_exactness.1 ⟨[.fragmentDefinition [.field "name" none, .field "email" none]]⟩
      [.field "name" none, .field "email" none] rfl,
   masking_exactness.2.2.1
      [("__typename", .vstr "User"), ("id", .vstr "1"), ("name", .vstr "A"),
       ("email", .vstr "e"), ("phone", .vstr "555")]
      [] ["name", "email", "__typename"] [] (by simp)⟩

/-! ### Claim C1: normalization round trip -/

mutual

/-- No reference object (`__ref` key) anywhere in a payload; the
round-trip claim assumes the payload carries none. -/
def noRefs : Val → Bool
  | .vnull => true
  | .vundef => true
  | .vbool _ => true
  | .vnum _ => true
  | .vstr _ => true
  | .varr items => noRefsList items
  | .vobj fields => !hasKey fields "__ref" && noRefsFields fields

/-- Reference-freeness of array elements. -/
def noRefsList : List Val → Bool
  | [] => true
  | v :: rest => noRefs v && noRefsList rest

/-- Reference-freeness of an object's field values. -/
def noRefsFields : List (String × Val) → Bool
  | [] => true
  | (_, v) :: rest => noRefs v && noRefsFields rest

end

mutual

/-- The round-trip image described by the spec: the payload with
non-entity structure preserved and every entity sub-object replaced by
the latest stored field values for its `EntityId` — that is, by the
denormalization of a reference to it against the produced store. -/
def roundTripSpec (tp : TypePolicies) (E : EntityMap) : Val → Val
  | .vnull => .vnull
  | .vundef => .vundef
  | .vbool b => .vbool b
  | .vnum n => .vnum n
  | .vstr s => .vstr s
  | .varr items => .varr (roundTripSpecList tp E items)
  | .vobj fields =>
    match getEntityId fields tp with
    | some id => denormalize E [] (toEntityRef id)
    | none => .vobj (roundTripSpecFields tp E fields)

/-- Element-wise round-trip image of an array. -/
def roundTripSpecList (tp : TypePolicies) (E : EntityMap) : List Val → List Val
  | [] => []
  | v :: rest => roundTripSpec tp E v :: roundTripSpecList tp E rest

/-- Field-wise round-trip image of a non-entity object. -/
def roundTripSpecFields (tp : TypePolicies) (E : EntityMap) : List (String × Val) → Obj
  | [] => []
  | (k, v) :: rest => (k, roundTripSpec tp E v) :: roundTripSpecFields tp E rest

end

/-- Normalization's map-free result keeps an object's key list. -/
theorem normResultFields_keys (tp : TypePolicies) (fields : List (String × Val)) :
    (normResultFields tp fields).map Prod.fst = fields.map Prod.fst := by
  induction fields with
  | nil => rfl
  | cons p rest ih =>
    obtain ⟨k, v⟩ := p
    simp only [normResultFields, List.map_cons, ih]

/-- Unfolding: `denormalize` maps over a non-reference object's fields. -/
theorem denormalize_vobj_not_ref (E : EntityMap) (visited : List EntityId) (fields : Obj)
    (h : hasKey fields "__ref" = false) :
    denormalize E visited (.vobj fields) = .vobj (denormalizeFields E visited fields) := by
  rw [denormalize]
  simp [h]

/-- Unfolding: `denormalize` on an empty array. -/
theorem denormalizeList_nil (E : EntityMap) (visited : List EntityId) :
    denormalizeList E visited [] = [] := by
  rw [denormalizeList]

/-- Unfolding: `denormalize` walks an array element-wise. -/
theorem denormalizeList_cons (E : EntityMap) (visited : List EntityId) (v : Val)
    (rest : List Val) :
    denormalizeList E visited (v :: rest)
      = denormalize E visited v :: denormalizeList E visited rest := by
  rw [denormalizeList]

/-- Unfolding: `denormalize` on an empty field list. -/
theorem denormalizeFields_nil (E : EntityMap) (visited : List EntityId) :
    denormalizeFields E visited [] = [] := by
  rw [denormalizeFields]

/-- Unfolding: `denormalize` walks an object's entries field-wise. -/
theorem denormalizeFields_cons (E : EntityMap) (visited : List EntityId) (k : String)
    (v : Val) (rest : List (String × Val)) :
    denormalizeFields E visited ((k, v) :: rest)
      = (k, denormalize E visited v) :: denormalizeFields E visited rest := by
  rw [denormalizeFields]

mutual

/-- Denormalizing the normalization result of a reference-free value
against any entity map yields the spec's round-trip image. -/
theorem denorm_normResult (tp : TypePolicies) (E : EntityMap) (v : Val)
    (h : noRefs v = true) :
    denormalize E [] (normResult tp v) = roundTripSpec tp E v := by
  cases v with
  | vnull =>
    show denormalize E [] .vnull = .vnull
    rw [denormalize]
  | vundef =>
    show denormalize E [] .vundef = .vundef
    rw [denormalize]
  | vbool b =>
    show denormalize E [] (.vbool b) = .vbool b
    rw [denormalize]
  | vnum n =>
    show denormalize E [] (.vnum n) = .vnum n
    rw [denormalize]
  | vstr s =>
    show denormalize E [] (.vstr s) = .vstr s
    rw [denormalize]
  | varr items =>
    show denormalize E [] (.varr (normResultList tp items))
      = .varr (roundTripSpecList tp E items)
    rw [denormalize]
    rw [denorm_normResultList tp E items (by simpa [noRefs] using h)]
  | vobj fields =>
    cases hid : getEntityId fields tp with
    | some id =>
      show denormalize E [] (normResult tp (.vobj fields)) = roundTripSpec tp E (.vobj fields)
      simp only [normResult, roundTripSpec, hid]
    | none =>
      have hparts : (!hasKey fields "__ref") = true ∧ noRefsFields fields = true := by
        simpa [noRefs] using h
      have hnone : fields.lookup "__ref" = none := by
        have h1 := hparts.1
        unfold hasKey objGet at h1
        cases hd : fields.lookup "__ref"
        · rfl
        · rw [hd] at h1
          simp at h1
      have hkey : hasKey (normResultFields tp fields) "__ref" = false := by
        have hlk : (normResultFields tp fields).lookup "__ref" = none :=
          lookup_none_of_not_mem_keys (by
            rw [normResultFields_keys]
            exact not_mem_keys_of_lookup_none hnone)
        simp [hasKey, objGet, hlk]
      show denormalize E [] (normResult tp (.vobj fields)) = roundTripSpec tp E (.vobj fields)
      simp only [normResult, roundTripSpec, hid]
      rw [denormalize_vobj_not_ref E [] (normResultFields tp fields) hkey]
      rw [denorm_normResultFields tp E fields hparts.2]

/-- Element-wise version of `denorm_normResult`. -/
theorem denorm_normResultList (tp : TypePolicies) (E : EntityMap) (items : List Val)
    (h : noRefsList items = true) :
    denormalizeList E [] (normResultList tp items) = roundTripSpecList tp E items := by
  cases items with
  | nil => rw [show normResultList tp [] = [] from rfl, denormalizeList_nil]; rfl
  | cons v rest =>
    have hparts : noRefs v = true ∧ noRefsList rest = true := by
      simpa [noRefsList] using h
    show denormalizeList E [] (normResult tp v :: normResultList tp rest)
      = roundTripSpec tp E v :: roundTripSpecList tp E rest
    rw [denormalizeList_cons]
    rw [denorm_normResult tp E v hparts.1, denorm_normResultList tp E rest hparts.2]

/-- Field-wise version of `denorm_normResult`. -/
theorem denorm_normResultFields (tp : TypePolicies) (E : EntityMap)
    (fields : List (String × Val)) (h : noRefsFields fields = true) :
    denormalizeFields E [] (normResultFields tp fields) = roundTripSpecFields tp E fields := by
  cases fields with
  | nil => rw [show normResultFields tp [] = [] from rfl, denormalizeFields_nil]; rfl
  | cons p rest =>
    obtain ⟨k, v⟩ := p
    have hparts : noRefs v = true ∧ noRefsFields rest = true := by
      simpa [noRefsFields] using h
    show denormalizeFields E [] ((k, normResult tp v) :: normResultFields tp rest)
      = (k, roundTripSpec tp E v) :: roundTripSpecFields tp E rest
    rw [denormalizeFields_cons]
    rw [denorm_normResult tp E v hparts.1, denorm_normResultFields tp E rest hparts.2]

end

/-- C1.  For every reference-free payload, denormalizing the
normalization result against the produced entity map is exactly the
spec's round-trip image: non-entity structure preserved, every entity
sub-object replaced by the latest merged field values stored under its
`EntityId`. -/
theorem round_trip_idempotence (tp : TypePolicies) (p : Val) (h : noRefs p = true) :
    denormalize (normalize p tp).2 [] (normalize p tp).1
      = roundTripSpec tp (normalize p tp).2 p := by
  rw [show (normalize p tp).1 = normResult tp p from normalizeValue_fst tp p []]
  exact denorm_normResult tp (normalize p tp).2 p h

/-- Witness for C1 at a payload with a repeated entity (merged fields)
and an embedded non-entity wrapper. -/
theorem round_trip_idempotence_witness :
    noRefs (.vobj [("users", .varr
        [.vobj [("__typename", .vstr "User"), ("id", .vstr "1"), ("name", .vstr "A"),
            ("pet", .vobj [("__typename", .vstr "Pet"), ("id", .vstr "p1"),
              ("name", .vstr "Rex")])],
         .vobj [("__typename", .vstr "User"), ("id", .vstr "1"), ("email", .vstr "e")]]),
      ("meta", .vobj [("count", .vnum 2)])]) = true
    ∧ denormalize
        (normalize (.vobj [("users", .varr
            [.vobj [("__typename", .vstr "User"), ("id", .vstr "1"), ("name", .vstr "A"),
                ("pet", .vobj [("__typename", .vstr "Pet"), ("id", .vstr "p1"),
                  ("name", .vstr "Rex")])],
             .vobj [("__typename", .vstr "User"), ("id", .vstr "1"), ("email", .vstr "e")]]),
          ("meta", .vobj [("count", .vnum 2)])]) []).2 []
        (normalize (.vobj [("users", .varr
            [.vobj [("__typename", .vstr "User"), ("id", .vstr "1"), ("name", .vstr "A"),
                ("pet", .vobj [("__typename", .vstr "Pet"), ("id", .vstr "p1"),
                  ("name", .vstr "Rex")])],
             .vobj [("__typename", .vstr "User"), ("id", .vstr "1"), ("email", .vstr "e")]]),
          ("meta", .vobj [("count", .vnum 2)])]) []).1
      = roundTripSpec []
          (normalize (.vobj [("users", .varr
              [.vobj [("__typename", .vstr "User"), ("id", .vstr "1"), ("name", .vstr "A"),
                  ("pet", .vobj [("__typename", .vstr "Pet"), ("id", .vstr "p1"),
                    ("name", .vstr "Rex")])],
               .vobj [("__typename", .vstr "User"), ("id", .vstr "1"), ("email", .vstr "e")]]),
            ("meta", .vobj [("count", .vnum 2)])]) []).2
          (.vobj [("users", .varr
              [.vobj [("__typename", .vstr "User"), ("id", .vstr "1"), ("name", .vstr "A"),
                  ("pet", .vobj [("__typename", .vstr "Pet"), ("id", .vstr "p1"),
                    ("name", .vstr "Rex")])],
               .vobj [("__typename", .vstr "User"), ("id", .vstr "1"), ("email", .vstr "e")]]),
            ("meta", .vobj [("count", .vnum 2)])]) :=
  ⟨rfl, round_trip_idempotence []
    (.vobj [("users", .varr
        [.vobj [("__typename", .vstr "User"), ("id", .vstr "1"), ("name", .vstr "A"),
            ("pet", .vobj [("__typename", .vstr "Pet"), ("id", .vstr "p1"),
              ("name", .vstr "Rex")])],
         .vobj [("__typename", .vstr "User"), ("id", .vstr "1"), ("email", .vstr "e")]]),
      ("meta", .vobj [("count", .vnum 2)])]) rfl⟩

/-! ### Claim C7: store shape invariant -/

/-- Field lookup through map-free normalization of an object's entries. -/
theorem objGet_normResultFields (tp : TypePolicies) (fields : List (String × Val)) (k : String) :
    objGet (normResultFields tp fields) k = (objGet fields k).map (normResult tp) := by
  induction fields with
  | nil => rfl
  | cons p rest ih =>
    obtain ⟨a, v⟩ := p
    by_cases hk : k = a
    · simp [normResultFields, objGet, List.lookup, hk]
    · simp only [normResultFields, objGet, List.lookup, beq_false_of_ne hk]
      exact ih

/-- Normalization preserves JS truthiness (entities become reference
objects, which are still truthy objects). -/
theorem jsTruthy_normResult (tp : TypePolicies) (v : Val) :
    jsTruthy (normResult tp v) = jsTruthy v := by
  cases v with
  | vobj fields =>
    simp only [normResult]
    cases getEntityId fields tp <;> simp [toEntityRef, jsTruthy]
  | _ => rfl

mutual

/-- Normalization preserves JS string coercion: scalars are untouched,
objects stringify as `"[object Object]"` whether raw or as references,
and arrays stringify element-wise. -/
theorem jsToString_normResult (tp : TypePolicies) (v : Val) :
    jsToString (normResult tp v) = jsToString v := by
  cases v with
  | vnull => rfl
  | vundef => rfl
  | vbool b => rfl
  | vnum n => rfl
  | vstr s => rfl
  | varr items =>
    simp only [normResult, jsToString]
    exact jsArrToString_normResultList tp items
  | vobj fields =>
    simp only [normResult]
    cases getEntityId fields tp <;> rfl

/-- Array-join string coercion through normalization. -/
theorem jsArrToString_normResultList (tp : TypePolicies) (items : List Val) :
    jsArrToString (normResultList tp items) = jsArrToString items := by
  cases items with
  | nil => rfl
  | cons v rest =>
    cases rest with
    | nil =>
      show jsArrToString [normResult tp v] = jsArrToString [v]
      simp only [jsArrToString]
      exact jsArrElem_normResult tp v
    | cons w tail =>
      show jsArrToString (normResult tp v :: normResultList tp (w :: tail))
        = jsArrToString (v :: w :: tail)
      simp only [normResultList, jsArrToString]
      rw [jsArrElem_normResult tp v]
      rw [show (normResult tp w :: normResultList tp tail : List Val)
        = normResultList tp (w :: tail) from rfl]
      rw [jsArrToString_normResultList tp (w :: tail)]

/-- Array-element string coercion through normalization. -/
theorem jsArrElem_normResult (tp : TypePolicies) (v : Val) :
    jsArrElem (normResult tp v) = jsArrElem v := by
  cases v with
  | vnull => rfl
  | vundef => rfl
  | vbool b => rfl
  | vnum n => rfl
  | vstr s => rfl
  | varr items =>
    simp only [normResult, jsArrElem]
    exact jsArrToString_normResultList tp items
  | vobj fields =>
    simp only [normResult]
    cases getEntityId fields tp <;> rfl

end

/-- The `id ?? _id` value commutes with map-free normalization. -/
theorem defaultIdValue_normResultFields (tp : TypePolicies) (fields : List (String × Val)) :
    defaultIdValue (normResultFields tp fields) = normResult tp (defaultIdValue fields) := by
  unfold defaultIdValue
  rw [objGet_normResultFields, objGet_normResultFields]
  have harm : ((objGet fields "_id").map (normResult tp)).getD .vundef
      = normResult tp ((objGet fields "_id").getD .vundef) := by
    cases objGet fields "_id" <;> rfl
  cases hid : objGet fields "id" with
  | none => exact harm
  | some v =>
    cases v with
    | vnull => exact harm
    | vundef => exact harm
    | vbool b => rfl
    | vnum n => rfl
    | vstr s => rfl
    | varr items => rfl
    | vobj f2 =>
      cases hg : getEntityId f2 tp with
      | some id => simp [normResult, hg, toEntityRef]
      | none => simp [normResult, hg]

/-- Key segments of a list policy commute with normalization. -/
theorem keySegment_normResultFields (tp : TypePolicies) (fields : List (String × Val))
    (f : String) : keySegment (normResultFields tp fields) f = keySegment fields f := by
  unfold keySegment
  rw [objGet_normResultFields]
  cases hv : objGet fields f with
  | none => rfl
  | some v =>
    cases v with
    | vobj f2 =>
      cases hg : getEntityId f2 tp with
      | some id => simp [normResult, hg, toEntityRef]
      | none => simp [normResult, hg]
    | _ => rfl

/-- No type policy in scope resolves identity through a custom
function. -/
def keyFieldsFuncFree (tp : TypePolicies) : Prop :=
  ∀ (t : String) (p : TypePolicy) (f : Obj → Option String),
    tp.lookup t = some p → p.keyFields ≠ some (.func f)

/-- Under function-free policies, normalizing an object's field values
does not change how the object's identity resolves. -/
theorem getEntityId_normResultFields (tp : TypePolicies) (hff : keyFieldsFuncFree tp)
    (fields : List (String × Val)) :
    getEntityId (normResultFields tp fields) tp = getEntityId fields tp := by
  unfold getEntityId
  rw [objGet_normResultFields]
  have htv : ((objGet fields "__typename").map (normResult tp)).getD .vundef
      = normResult tp ((objGet fields "__typename").getD .vundef) := by
    cases objGet fields "__typename" <;> rfl
  rw [htv]
  simp only [jsTruthy_normResult, jsToString_normResult]
  by_cases htr : jsTruthy ((objGet fields "__typename").getD .vundef) = true
  · simp only [htr, Bool.not_true, Bool.false_eq_true, if_false]
    cases hkf : (tp.lookup (jsToString ((objGet fields "__typename").getD .vundef))).bind
        (fun p => p.keyFields) with
    | none =>
      rw [defaultIdValue_normResultFields]
      cases hdv : defaultIdValue fields with
      | vobj f2 =>
        cases hg : getEntityId f2 tp with
        | some id => simp [normResult, hg, toEntityRef]
        | none => simp [normResult, hg]
      | _ => rfl
    | some kf =>
      cases kf with
      | list fs =>
        have hseg : fs.map (keySegment (normResultFields tp fields))
            = fs.map (keySegment fields) :=
          List.map_congr_left (fun f _ => keySegment_normResultFields tp fields f)
        simp [hseg]
      | func f =>
        exfalso
        cases hlp : tp.lookup (jsToString ((objGet fields "__typename").getD .vundef)) with
        | none => rw [hlp] at hkf; simp at hkf
        | some p =>
          rw [hlp] at hkf
          simp only [Option.some_bind] at hkf
          exact hff _ p f hlp hkf
  · have hfalse : jsTruthy ((objGet fields "__typename").getD .vundef) = false := by
      cases hc : jsTruthy ((objGet fields "__typename").getD .vundef)
      · rfl
      · exact absurd hc htr
    simp [hfalse]

mutual

/-- A value holds no raw entity: no object anywhere inside it (the
value itself included) has a resolvable identity.  References
(`__ref`-only objects) and embedded objects are allowed. -/
def entityFree (tp : TypePolicies) : Val → Bool
  | .vnull => true
  | .vundef => true
  | .vbool _ => true
  | .vnum _ => true
  | .vstr _ => true
  | .varr items => entityFreeList tp items
  | .vobj fields => (getEntityId fields tp).isNone && entityFreeFields tp fields

/-- Entity-freeness of array elements. -/
def entityFreeList (tp : TypePolicies) : List Val → Bool
  | [] => true
  | v :: rest => entityFree tp v && entityFreeList tp rest

/-- Entity-freeness of an object's field values. -/
def entityFreeFields (tp : TypePolicies) : List (String × Val) → Bool
  | [] => true
  | (_, v) :: rest => entityFree tp v && entityFreeFields tp rest

end

/-- The store shape invariant: every stored record's field values are
entity-free (nested entities appear only as references, embedded
objects are unresolvable). -/
def storeInv (tp : TypePolicies) (E : EntityMap) : Bool :=
  E.all (fun p => entityFreeFields tp p.2)

/-- Field-value freeness as a `List.all`. -/
theorem entityFreeFields_eq_all (tp : TypePolicies) (fields : List (String × Val)) :
    entityFreeFields tp fields = fields.all (fun p => entityFree tp p.2) := by
  induction fields with
  | nil => rfl
  | cons p rest ih =>
    obtain ⟨k, v⟩ := p
    simp [entityFreeFields, ih]

/-- A reference object is entity-free: it has no type discriminator. -/
theorem entityFree_toEntityRef (tp : TypePolicies) (id : EntityId) :
    entityFree tp (toEntityRef id) = true := rfl

/-- A found binding is a member of the association list. -/
theorem lookup_mem {β : Type} {m : List (String × β)} {k : String} {v : β}
    (h : m.lookup k = some v) : (k, v) ∈ m := by
  induction m with
  | nil => simp [List.lookup] at h
  | cons p rest ih =>
    obtain ⟨a, b⟩ := p
    by_cases hk : k = a
    · subst hk
      simp [List.lookup] at h
      simp [h]
    · simp only [List.lookup, beq_false_of_ne hk] at h
      exact List.mem_cons_of_mem _ (ih h)

/-- Assignment keeps an all-values predicate. -/
theorem all_snd_alSet {β : Type} (P : β → Bool) (m : List (String × β)) (k : String) (v : β)
    (hm : m.all (fun p => P p.2) = true) (hv : P v = true) :
    (alSet m k v).all (fun p => P p.2) = true := by
  unfold alSet
  by_cases hk : (m.lookup k).isSome
  · simp only [hk, if_true, List.all_map]
    rw [List.all_eq_true] at hm ⊢
    intro p hp
    simp only [Function.comp]
    by_cases h1 : p.1 = k
    · simpa [h1] using hv
    · simpa [h1] using hm p hp
  · have hnone : m.lookup k = none := by
      cases hc : m.lookup k
      · rfl
      · simp [hc] at hk
    simp only [hnone, Option.isSome_none, Bool.false_eq_true, if_false, List.all_append]
    simp [List.all_eq_true] at hm ⊢
    exact ⟨fun a b hab => hm a b hab, hv⟩

/-- The invariant survives storing an entity-free record. -/
theorem storeInv_alSet (tp : TypePolicies) (E : EntityMap) (id : EntityId) (r : Obj)
    (hS : storeInv tp E = true) (hr : entityFreeFields tp r = true) :
    storeInv tp (alSet E id r) = true :=
  all_snd_alSet (fun rec => entityFreeFields tp rec) E id r hS hr

/-- A record read out of an invariant-satisfying map is entity-free. -/
theorem storeInv_lookup (tp : TypePolicies) {E : EntityMap} {id : EntityId} {r : Obj}
    (hS : storeInv tp E = true) (h : emGet E id = some r) :
    entityFreeFields tp r = true := by
  unfold storeInv at hS
  rw [List.all_eq_true] at hS
  exact hS (id, r) (lookup_mem h)

/-- Spread merge of two entity-free records is entity-free. -/
theorem entityFreeFields_objMerge (tp : TypePolicies) (a b : Obj)
    (ha : entityFreeFields tp a = true) (hb : entityFreeFields tp b = true) :
    entityFreeFields tp (objMerge a b) = true := by
  rw [entityFreeFields_eq_all] at ha hb ⊢
  induction b generalizing a with
  | nil => exact ha
  | cons p rest ih =>
    obtain ⟨k, w⟩ := p
    rw [List.all_cons, Bool.and_eq_true] at hb
    show (List.foldl (fun acc p => objSet acc p.1 p.2) (objSet a k w) rest).all
      (fun p => entityFree tp p.2) = true
    exact ih (objSet a k w) (all_snd_alSet _ a k w ha hb.1) hb.2

/-- The invariant survives folding an invariant-satisfying entity list
into an invariant-satisfying map. -/
theorem storeInv_fold_merge (tp : TypePolicies) :
    ∀ (L : EntityMap), storeInv tp L = true →
      ∀ m : EntityMap, storeInv tp m = true →
        storeInv tp (L.foldl (fun acc p => mergeEntityInto acc p.1 p.2) m) = true := by
  intro L
  induction L with
  | nil =>
    intro _ m hm
    exact hm
  | cons p rest ih =>
    intro hL m hm
    obtain ⟨k, r⟩ := p
    have hparts : entityFreeFields tp r = true ∧ storeInv tp rest = true := by
      simpa [storeInv] using hL
    simp only [List.foldl_cons]
    apply ih hparts.2
    unfold mergeEntityInto
    cases hg : emGet m k with
    | some ex =>
      exact storeInv_alSet tp m k _ hm
        (entityFreeFields_objMerge tp ex r (storeInv_lookup tp hm hg) hparts.1)
    | none => exact storeInv_alSet tp m k r hm hparts.1

mutual

/-- Under function-free policies, normalization emits an entity-free
result value and keeps the entity map invariant-satisfying. -/
theorem normalizeValue_entityFree (tp : TypePolicies) (hff : keyFieldsFuncFree tp)
    (v : Val) (E : EntityMap) (hE : storeInv tp E = true) :
    entityFree tp (normalizeValue tp v E).1 = true
    ∧ storeInv tp (normalizeValue tp v E).2 = true := by
  cases v with
  | vnull => exact ⟨rfl, hE⟩
  | vundef => exact ⟨rfl, hE⟩
  | vbool b => exact ⟨rfl, hE⟩
  | vnum n => exact ⟨rfl, hE⟩
  | vstr s => exact ⟨rfl, hE⟩
  | varr items =>
    have h := normalizeListVals_entityFree tp hff items E hE
    exact ⟨h.1, h.2⟩
  | vobj fields =>
    have hf := normalizeObjFields_entityFree tp hff fields E hE
    cases hid : getEntityId fields tp with
    | some id =>
      constructor
      · show entityFree tp (normalizeValue tp (.vobj fields) E).1 = true
        rw [normalizeValue_fst]
        simp only [normResult, hid]
        exact entityFree_toEntityRef tp id
      · show storeInv tp (normalizeValue tp (.vobj fields) E).2 = true
        simp only [normalizeValue, hid]
        cases hex : emGet (normalizeObjFields tp fields E).2 id with
        | some existing =>
          simp only [hex]
          exact storeInv_alSet tp _ id _ hf.2
            (entityFreeFields_objMerge tp existing _ (storeInv_lookup tp hf.2 hex) hf.1)
        | none =>
          simp only [hex]
          exact storeInv_alSet tp _ id _ hf.2 hf.1
    | none =>
      constructor
      · show entityFree tp (normalizeValue tp (.vobj fields) E).1 = true
        rw [normalizeValue_fst]
        simp only [normResult, hid]
        have hkeyid : getEntityId (normResultFields tp fields) tp = none := by
          rw [getEntityId_normResultFields tp hff fields]
          exact hid
        have hvals : entityFreeFields tp (normResultFields tp fields) = true := by
          have h1 := hf.1
          rwa [normalizeObjFields_fst] at h1
        simp [entityFree, hkeyid, hvals]
      · have h2 := hf.2
        show storeInv tp (normalizeValue tp (.vobj fields) E).2 = true
        simpa [normalizeValue, hid] using h2

/-- Element-wise version of `normalizeValue_entityFree`. -/
theorem normalizeListVals_entityFree (tp : TypePolicies) (hff : keyFieldsFuncFree tp)
    (items : List Val) (E : EntityMap) (hE : storeInv tp E = true) :
    entityFreeList tp (normalizeListVals tp items E).1 = true
    ∧ storeInv tp (normalizeListVals tp items E).2 = true := by
  cases items with
  | nil => exact ⟨rfl, hE⟩
  | cons v rest =>
    have h1 := normalizeValue_entityFree tp hff v E hE
    have h2 := normalizeListVals_entityFree tp hff rest (normalizeValue tp v E).2 h1.2
    refine ⟨?_, h2.2⟩
    show entityFreeList tp
      ((normalizeValue tp v E).1 :: (normalizeListVals tp rest (normalizeValue tp v E).2).1)
      = true
    simp [entityFreeList, h1.1, h2.1]

/-- Field-wise version of `normalizeValue_entityFree`. -/
theorem normalizeObjFields_entityFree (tp : TypePolicies) (hff : keyFieldsFuncFree tp)
    (fields : List (String × Val)) (E : EntityMap) (hE : storeInv tp E = true) :
    entityFreeFields tp (normalizeObjFields tp fields E).1 = true
    ∧ storeInv tp (normalizeObjFields tp fields E).2 = true := by
  cases fields with
  | nil => exact ⟨rfl, hE⟩
  | cons p rest =>
    obtain ⟨k, v⟩ := p
    have h1 := normalizeValue_entityFree tp hff v E hE
    have h2 := normalizeObjFields_entityFree tp hff rest (normalizeValue tp v E).2 h1.2
    refine ⟨?_, h2.2⟩
    show entityFreeFields tp
      ((k, (normalizeValue tp v E).1)
        :: (normalizeObjFields tp rest (normalizeValue tp v E).2).1) = true
    simp [entityFreeFields, h1.1, h2.1]

end

/-- Store states reachable from the empty cache through the public
operations that keep entities normalized: `write`, `evict`, `clear`
and the two optimistic-layer operations (not `writeFragment`). -/
inductive Reachable (tp : TypePolicies) : StoreState → Prop where
  | init : Reachable tp ⟨[], [], tp⟩
  | writeStep (S : StoreState) (data : Val) : Reachable tp S → Reachable tp (write S data)
  | evictStep (S : StoreState) (id : EntityId ⊕ Obj) (fieldName : Option String) :
      Reachable tp S → Reachable tp (evict S id fieldName).1
  | clearStep (S : StoreState) : Reachable tp S → Reachable tp (clear S)
  | addLayerStep (S : StoreState) (layerId : String) (data : Val) :
      Reachable tp S → Reachable tp (addOptimisticLayer S layerId data)
  | removeLayerStep (S : StoreState) (layerId : String) :
      Reachable tp S → Reachable tp (removeOptimisticLayer S layerId)

/-- `evict` never touches the configured policies. -/
theorem evict_typePolicies (S : StoreState) (id : EntityId ⊕ Obj) (f : Option String) :
    (evict S id f).1.typePolicies = S.typePolicies := by
  unfold evict
  split
  · rfl
  · split
    · rfl
    · rfl

/-- Reachable states carry the cache's configured policies. -/
theorem reachable_typePolicies (tp : TypePolicies) (S : StoreState)
    (h : Reachable tp S) : S.typePolicies = tp := by
  induction h with
  | init => rfl
  | writeStep T data _ ih => simpa [write] using ih
  | evictStep T id f _ ih => rw [evict_typePolicies]; exact ih
  | clearStep T _ ih => simpa [clear] using ih
  | addLayerStep T layerId data _ ih => simpa [addOptimisticLayer] using ih
  | removeLayerStep T layerId _ ih => simpa [removeOptimisticLayer] using ih

/-- `evict` preserves the shape invariant (it only drops data). -/
theorem storeInv_evict (tp : TypePolicies) (S : StoreState) (id : EntityId ⊕ Obj)
    (f : Option String) (h : storeInv tp S.entities = true) :
    storeInv tp (evict S id f).1.entities = true := by
  unfold evict
  split
  · exact h
  · rename_i eid heqeid
    split
    · exact h
    · rename_i entity heq2
      cases f with
      | some fieldName =>
        show storeInv tp (emSet S.entities eid (objRemove entity fieldName)) = true
        apply storeInv_alSet tp _ _ _ h
        have hent := storeInv_lookup tp h heq2
        rw [entityFreeFields_eq_all, List.all_eq_true] at hent ⊢
        intro p hp
        exact hent p (List.mem_of_mem_filter hp)
      | none =>
        show storeInv tp (emDelete S.entities eid) = true
        unfold storeInv at h
        unfold storeInv emDelete
        rw [List.all_eq_true] at h ⊢
        intro p hp
        exact h p (List.mem_of_mem_filter hp)

/-- C7 counterexample.  `writeFragment` bypasses normalization: merging
`{friend: {__typename:"User", id:"2"}}` into `User:1` stores a raw
object with a resolvable identity (`"User:2"`) as a field value, so
the invariant fails on a state reached through the claim's listed
operations. -/
theorem store_shape_invariant_counterexample :
    storeInv []
      (writeFragment ⟨[], [], []⟩ (.inl "User:1")
        [("friend", .vobj [("__typename", .vstr "User"), ("id", .vstr "2")])]).entities
      = false
    ∧ getEntityId [("__typename", .vstr "User"), ("id", .vstr "2")] [] = some "User:2" :=
  ⟨rfl, rfl⟩

/-- C7 amended.  For policies without custom key functions, every
state reachable from the empty cache through `write`, `evict`,
`clear`, `addOptimisticLayer` and `removeOptimisticLayer` (but not
`writeFragment`, which bypasses normalization) satisfies the shape
invariant: no stored record holds a raw object with a resolvable
identity anywhere in its field values. -/
theorem store_shape_invariant_amended (tp : TypePolicies) (hff : keyFieldsFuncFree tp)
    (S : StoreState) (hS : Reachable tp S) : storeInv tp S.entities = true := by
  induction hS with
  | init => rfl
  | writeStep T data hR ih =>
    have htp : T.typePolicies = tp := reachable_typePolicies tp T hR
    show storeInv tp ((normalize data T.typePolicies).2.foldl
      (fun m p => mergeEntityInto m p.1 p.2) T.entities) = true
    apply storeInv_fold_merge tp (normalize data T.typePolicies).2 ?_ T.entities ih
    rw [htp]
    exact (normalizeValue_entityFree tp hff data [] rfl).2
  | evictStep T id f hR ih => exact storeInv_evict tp T id f ih
  | clearStep T hR ih => rfl
  | addLayerStep T layerId data hR ih => simpa [addOptimisticLayer] using ih
  | removeLayerStep T layerId hR ih => simpa [removeOptimisticLayer] using ih

/-- Witness for C7's amended invariant at a two-step reachable state
holding a nested entity written through `write`. -/
theorem store_shape_invariant_amended_witness :
    storeInv [] (write ⟨[], [], []⟩
      (.vobj [("__typename", .vstr "A"), ("id", .vstr "1"),
        ("child", .vobj [("__typename", .vstr "B"), ("id", .vstr "2")])])).entities = true :=
  store_shape_invariant_amended []
    (fun t p f hlp => by simp [List.lookup] at hlp)
    _
    (Reachable.writeStep ⟨[], [], []⟩
      (.vobj [("__typename", .vstr "A"), ("id", .vstr "1"),
        ("child", .vobj [("__typename", .vstr "B"), ("id", .vstr "2")])])
      Reachable.init)

end GraphQLCache
